import Mathlib

/-!
# Verification of the kota Dynamic Extensibility Runtime

A shallow embedding of the core of the `kota` repository:

* the Value Bridge between `serde_json::Value` and `mlua::Value`
  (`json_to_lua` / `lua_to_json` in
  `src/kota_code/runtime/dyn_tools_loader/dyn_tool.rs`, duplicated as
  `lua_value_to_json` / `lua_table_to_json` in
  `src/kota_code/runtime/dyn_tools_loader/mod.rs`),
* the tool manifest loader (`LuaToolLoader::load_tools`),
* the config loader environment (`KotaConfig::from_lua_file`),
* the tool registry (`ToolRegistry`),
* the command registry (`CommandRegistry::execute`), and
* the command-line parser (`parse_command_input`).

Modelling conventions:

* `serde_json::Value` is modelled by `Json`.  The default `serde_json`
  `Map` is a `BTreeMap<String, Value>` (no `preserve_order` feature is
  enabled), so objects are modelled as key-sorted association lists and
  object insertion (`mapInsert`) is sorted insertion with replacement.
  `serde_json::Number` stores either an exact integer (`PosInt`/`NegInt`,
  merged here into `JNum.int` over `ℤ`, with `as_i64` succeeding exactly
  on the `i64` range) or a finite `f64` (`JNum.float`); `serde_json`
  numbers are never NaN/infinite by construction.
* `f64` appears only on the guest side (`F64`): the code performs no
  float arithmetic, only finiteness tests (`serde_json::Number::from_f64`
  returns `None` exactly on non-finite input), so `F64` is a finite
  rational plus the three non-finite points.  The `i64 → f64` conversion
  in `Number::as_f64` is modelled exactly (rounding is immaterial: it is
  only reached where the integer/float representation change already
  occurs, which is what the theorems observe).
* `mlua::Value` is modelled by `LuaValue`.  A Lua table is a finite list
  of key/value pairs with non-nil values; `Table::set` with a nil value
  removes the key (Lua semantics), otherwise it replaces in place or
  appends.  Function/userdata/thread values are opaque tags (a function
  carries an opaque bytecode identifier standing for `Function::dump`).
  Table-valued keys compare by reference in Lua; distinct freshly built
  tables are never equal, so `luaKeyEq` is `false` on tables.
* Guest strings are modelled as `String` (UTF-8); the only failure path
  of `lua_to_json` in the source is a non-UTF-8 guest string
  (`s.to_str()?`), which cannot arise in this model, so the model is
  total.  Likewise the engine out-of-memory failure paths of
  `json_to_lua` are elided.
-/

set_option maxHeartbeats 1600000

/-- Model of an `f64`: the code only tests finiteness, never computes. -/
inductive F64 where
  | finite (q : ℚ)
  | nan
  | inf
  | neginf
deriving DecidableEq

/-- `serde_json::Number`: exact integer (`PosInt`/`NegInt`) or finite float. -/
inductive JNum where
  | int (n : ℤ)
  | float (q : ℚ)
deriving DecidableEq

/-- `serde_json::Value`; objects are key-sorted association lists
(`BTreeMap` model, default `serde_json` feature set). -/
inductive Json where
  | null
  | bool (b : Bool)
  | num (n : JNum)
  | str (s : String)
  | arr (l : List Json)
  | obj (m : List (String × Json))

/-- `serde_json::Number::as_i64`: succeeds exactly on integers in the
`i64` range (`PosInt` within range, or any `NegInt`). -/
def JNum.as_i64 : JNum → Option ℤ
  | .int n => if -(2 ^ 63) ≤ n ∧ n < 2 ^ 63 then some n else none
  | .float _ => none

/-- `serde_json::Number::as_f64`: always succeeds (integer conversion
modelled exactly; see the header comment). -/
def JNum.as_f64 : JNum → F64
  | .int n => .finite (n : ℚ)
  | .float q => .finite q

/-- `serde_json::Number::from_f64`: `None` exactly on non-finite input. -/
def JNum.from_f64 : F64 → Option ℚ
  | .finite q => some q
  | _ => none

/-- `mlua::Value`.  `func` carries an opaque bytecode identifier
(standing for `Function::dump`); `userdata`/`lightuserdata`/`thread` are
opaque tags. -/
inductive LuaValue where
  | nil
  | boolean (b : Bool)
  | integer (i : ℤ)
  | number (f : F64)
  | str (s : String)
  | table (t : List (LuaValue × LuaValue))
  | func (fid : ℕ)
  | userdata
  | lightuserdata
  | thread

/-- A guest table: key/value pairs, non-nil values by construction. -/
abbrev LTable := List (LuaValue × LuaValue)

/-- Lua key equality as used by raw table indexing.  Scalars compare by
value; tables compare by reference in Lua, and every table in this model
is freshly constructed, so table keys never compare equal. -/
def luaKeyEq : LuaValue → LuaValue → Bool
  | .nil, .nil => true
  | .boolean a, .boolean b => a = b
  | .integer a, .integer b => a = b
  | .number a, .number b => a = b
  | .str a, .str b => a = b
  | .func a, .func b => a = b
  | .userdata, .userdata => true
  | .lightuserdata, .lightuserdata => true
  | .thread, .thread => true
  | _, _ => false

/-- `mlua::Table::get` (raw lookup on a metatable-free table): the value
stored at the key, or nil when absent. -/
def tget : LTable → LuaValue → LuaValue
  | [], _ => .nil
  | (k', v') :: t, k => if luaKeyEq k' k then v' else tget t k

/-- Helper for `tset`: store a non-nil value (replace in place, or
append when the key is absent). -/
def tsetNN : LTable → LuaValue → LuaValue → LTable
  | [], k, v => [(k, v)]
  | (k', v') :: t, k, v => if luaKeyEq k' k then (k, v) :: t else (k', v') :: tsetNN t k v

/-- `mlua::Table::set`: assigning nil removes the key (Lua semantics),
any other value is stored. -/
def tset (t : LTable) (k v : LuaValue) : LTable :=
  match v with
  | .nil => t.filter (fun p => !luaKeyEq p.1 k)
  | _ => tsetNN t k v

/-- The array-classification scan of `lua_to_json`: `is_array` stays
true iff every key is a positive integer (the source breaks out early on
the first offending key, which does not change the predicate). -/
def luaIsArray (t : LTable) : Bool :=
  t.all fun p =>
    match p.1 with
    | .integer i => decide (0 < i)
    | _ => false

/-- The `max_index` accumulator of the array-classification scan (its
value is only consulted when `luaIsArray` holds, in which case the scan
ran to completion). -/
def luaMaxIndex (t : LTable) : ℤ :=
  t.foldl
    (fun m p =>
      match p.1 with
      | .integer i => max m i
      | _ => m)
    0

/-- Key rendering of the object branch of `lua_to_json`: strings as-is,
integers via `to_string` (decimal), all other key kinds dropped. -/
def luaKeyStr : LuaValue → Option String
  | .str s => some s
  | .integer i => some (toString i)
  | _ => none

/-- `BTreeMap::insert` on the sorted association-list model: sorted
insertion, replacing an existing binding of the same key. -/
def mapInsert {β : Type} : List (String × β) → String → β → List (String × β)
  | [], k, v => [(k, v)]
  | (k', v') :: rest, k, v =>
    if k < k' then (k, v) :: (k', v') :: rest
    else if k = k' then (k, v) :: rest
    else (k', v') :: mapInsert rest k v

mutual

/-- `json_to_lua` (dyn_tool.rs): host document value to guest value.
Numbers try `as_i64` first (guest integer), else `as_f64` (guest float);
arrays become tables keyed `1..N` via `Table::set`; objects become
string-keyed tables via `Table::set` (so a null member stores nothing). -/
def json_to_lua : Json → LuaValue
  | .null => .nil
  | .bool b => .boolean b
  | .num n =>
    match n.as_i64 with
    | some i => .integer i
    | none => .number n.as_f64
  | .str s => .str s
  | .arr l => .table (setArr [] 1 l)
  | .obj m => .table (setObj [] m)
termination_by j => sizeOf j
decreasing_by
  all_goals simp_wf
  all_goals try omega

/-- The array loop of `json_to_lua`: `table.set(i + 1, elem)` in order. -/
def setArr (t : LTable) (i : ℤ) : List Json → LTable
  | [] => t
  | v :: vs => setArr (tset t (.integer i) (json_to_lua v)) (i + 1) vs
termination_by l => sizeOf l
decreasing_by
  all_goals simp_wf
  all_goals try omega

/-- The object loop of `json_to_lua`: `table.set(key, val)` in map
(key-sorted) order. -/
def setObj (t : LTable) : List (String × Json) → LTable
  | [] => t
  | (k, v) :: ps => setObj (tset t (.str k) (json_to_lua v)) ps
termination_by ps => sizeOf ps
decreasing_by
  all_goals simp_wf
  all_goals try omega

end

/-- Size bound for the recursion of `lua_to_json`: a table lookup
returns nil or one of the table's member values. -/
theorem tget_sizeOf (t : LTable) (k : LuaValue) : sizeOf (tget t k) < 1 + sizeOf t := by
  induction t with
  | nil => simp [tget]
  | cons p t ih =>
    obtain ⟨k', v'⟩ := p
    simp only [tget]
    by_cases h : luaKeyEq k' k = true
    · simp only [h, if_true, List.cons.sizeOf_spec, Prod.mk.sizeOf_spec]
      omega
    · simp only [h, Bool.false_eq_true, if_false, List.cons.sizeOf_spec,
        Prod.mk.sizeOf_spec]
      omega

mutual

/-- `lua_to_json` (dyn_tool.rs): guest value to host document value.
Non-finite guest numbers become `null` (`from_f64` returns `None`); a
table is an array iff every key is a positive integer and the maximum
key is positive (no density check), rebuilt by indices `1..max` (holes
become `null`); otherwise it is an object with integer keys rendered in
decimal and unsupported key kinds dropped; function/userdata/thread
values become `null`.  Total: the only source failure path is a
non-UTF-8 guest string, which this model cannot represent. -/
def lua_to_json : LuaValue → Json
  | .nil => .null
  | .boolean b => .bool b
  | .integer i => .num (.int i)
  | .number f =>
    match JNum.from_f64 f with
    | some q => .num (.float q)
    | none => .null
  | .str s => .str s
  | .table t =>
    if luaIsArray t ∧ 0 < luaMaxIndex t then
      .arr (arrLoop t 1 (luaMaxIndex t).toNat)
    else
      .obj (pairsObj [] t)
  | .func _ => .null
  | .userdata => .null
  | .lightuserdata => .null
  | .thread => .null
termination_by v => (2 * sizeOf v + 1, 0)
decreasing_by
  all_goals simp_wf
  all_goals try simp only [List.cons.sizeOf_spec, Prod.mk.sizeOf_spec]
  all_goals
    first
      | (apply Prod.Lex.right; omega)
      | (apply Prod.Lex.left; omega)
      | (apply Prod.Lex.left
         have := tget_sizeOf t (LuaValue.integer i)
         omega)

/-- The array rebuild loop of `lua_to_json`: `table.get(i)` for
`i = 1..=max_index`, recursively converted (`n` counts the remaining
indices starting at `i`). -/
def arrLoop (t : LTable) (i : ℤ) : ℕ → List Json
  | 0 => []
  | n + 1 => lua_to_json (tget t (.integer i)) :: arrLoop t (i + 1) n
termination_by n => (2 * sizeOf t + 2, n)
decreasing_by
  all_goals simp_wf
  all_goals try simp only [List.cons.sizeOf_spec, Prod.mk.sizeOf_spec]
  all_goals
    first
      | (apply Prod.Lex.right; omega)
      | (apply Prod.Lex.left; omega)
      | (apply Prod.Lex.left
         have := tget_sizeOf t (LuaValue.integer i)
         omega)

/-- The object branch loop of `lua_to_json`: fold the table's pairs into
a sorted map (`BTreeMap` insertion), dropping unsupported keys. -/
def pairsObj (acc : List (String × Json)) : LTable → List (String × Json)
  | [] => acc
  | (k, v) :: ps =>
    match luaKeyStr k with
    | some ks => pairsObj (mapInsert acc ks (lua_to_json v)) ps
    | none => pairsObj acc ps
termination_by ps => (2 * sizeOf ps, 0)
decreasing_by
  all_goals simp_wf
  all_goals try simp only [List.cons.sizeOf_spec, Prod.mk.sizeOf_spec]
  all_goals
    first
      | (apply Prod.Lex.right; omega)
      | (apply Prod.Lex.left; omega)
      | (apply Prod.Lex.left
         have := tget_sizeOf t (LuaValue.integer i)
         omega)

end

/-- mod.rs `lua_value_to_json` (`LuaToolLoader`): a verbatim duplicate of
the conversion logic of `lua_to_json` (same scan, same branches), so it
is modelled by the same function. -/
def lua_value_to_json : LuaValue → Json := lua_to_json

/-- mod.rs `lua_table_to_json`: always builds an object from all pairs
of the table (string keys as-is, integer keys in decimal, other keys
dropped), exactly the object branch of `lua_to_json`. -/
def lua_table_to_json (t : LTable) : Json := .obj (pairsObj [] t)

/-- `str::split_once('=')` as used by `parse_command_input`: split at the
first equals sign, `none` when the token has no equals sign.  (Stated on
the character list underlying the string so that concrete inputs
evaluate by kernel reduction.) -/
def splitFirstEq (tok : String) : Option (String × String) :=
  if tok.data.contains '=' then
    some (⟨tok.data.takeWhile (fun c => c ≠ '=')⟩,
      ⟨(tok.data.dropWhile (fun c => c ≠ '=')).drop 1⟩)
  else none

/-- Splitting a character list at whitespace (the segments, in order,
possibly empty at runs of whitespace). -/
def splitWsCore : List Char → List Char → List String
  | [], cur => [⟨cur.reverse⟩]
  | c :: cs, cur =>
    if c.isWhitespace then ⟨cur.reverse⟩ :: splitWsCore cs []
    else splitWsCore cs (c :: cur)

/-- `str::split_whitespace` as used by `parse_command_input`: split at
whitespace and keep only the non-empty tokens.  (Rust splits at Unicode
`White_Space`; `Char.isWhitespace` covers space/tab/newline/return,
which agrees on every input the claims mention.) -/
def split_whitespace (s : String) : List String :=
  (splitWsCore s.data []).filter (fun t => t ≠ "")

/-- The argument loop of `parse_command_input`.  The argument map is a
`HashMap<String, String>`; a std `HashMap` retains only its contents
(iteration order is seed-dependent, never insertion history), so it is
modelled canonically as a key-sorted association list with `mapInsert`. -/
def parseArgs : List String → ℕ → List (String × String) → List (String × String)
  | [], _, acc => acc
  | part :: rest, positional_index, acc =>
    match splitFirstEq part with
    | some (k, v) => parseArgs rest positional_index (mapInsert acc k v)
    | none => parseArgs rest (positional_index + 1) (mapInsert acc (toString positional_index) part)

/-- `parse_command_input` (command_registry.rs): split on whitespace,
first token is the command name, `=`-tokens are named arguments,
other tokens are numbered positionally from 1. -/
def parse_command_input (input : String) : Except String (String × List (String × String)) :=
  let parts := split_whitespace input
  match parts with
  | [] => .error "Empty command"
  | command_name :: rest => .ok (command_name, parseArgs rest 1 [])

/-- Spec-side restatement of the parser contract (C9), written from the
claim text: each non-name token with an equals sign is split at the
first equals sign; any other token is keyed by its 1-based ordinal among
positional tokens only, i.e. one more than the number of preceding
positional tokens. -/
def specParseArgs (toks : List String) : List (String × String) :=
  (List.range toks.length).foldl
    (fun acc j =>
      match splitFirstEq (toks.getD j "") with
      | some (k, v) => mapInsert acc k v
      | none =>
        mapInsert acc
          (toString ((toks.take j).countP (fun s => (splitFirstEq s).isNone) + 1))
          (toks.getD j ""))
    []

/-- Spec-side restatement of `parse_command_input` (C9 refinement). -/
def specParse (input : String) : Except String (String × List (String × String)) :=
  let parts := split_whitespace input
  match parts with
  | [] => .error "Empty command"
  | command_name :: rest => .ok (command_name, specParseArgs rest)

/-- A registered capability of the `ToolRegistry`: its unique name plus
an opaque identity for the boxed `Arc<dyn KotaTool>` payload. -/
structure KotaToolM where
  name : String
  id : ℕ
deriving DecidableEq

/-- `ToolRegistry` state: `tools: HashMap<String, Arc<dyn KotaTool>>`.
A std `HashMap` stores no insertion history, and `keys()` iterates in an
order that is a function of the stored contents (and hash seed) only, so
the contents are modelled canonically as a key-sorted association list. -/
def ToolRegistryNew : List (String × KotaToolM) := []

/-- `ToolRegistry::register_tool`: `self.tools.insert(tool.name(), tool)`
(replaces any previous entry of the same name). -/
def register_tool (r : List (String × KotaToolM)) (t : KotaToolM) : List (String × KotaToolM) :=
  mapInsert r t.name t

/-- `ToolRegistry::list_tools`: `self.tools.keys().cloned().collect()`. -/
def list_tools (r : List (String × KotaToolM)) : List String := r.map (fun p => p.1)

/-- Interpreter global state: the globals table of one `mlua::Lua`
instance (string-keyed). -/
abbrev GEnv := List (String × LuaValue)

/-- The behavior of a loaded guest function: from the interpreter's
globals and the single argument to the updated globals and either a
return value or a guest runtime fault.  Bytecode buffers are modelled by
their behavior (`Function::dump`/`load` round-trips behavior). -/
abbrev GuestFun := GEnv → LuaValue → GEnv × Except String LuaValue

/-- Assignment to an interpreter global. -/
def envSet : GEnv → String → LuaValue → GEnv
  | [], k, v => [(k, v)]
  | (k', v') :: e, k, v => if k = k' then (k, v) :: e else (k', v') :: envSet e k v

/-- Read of an interpreter global (nil when unset). -/
def envGet : GEnv → String → LuaValue
  | [], _ => .nil
  | (k', v') :: e, k => if k' = k then v' else envGet e k

/-- The library globals installed by `mlua::Lua::new()`, which loads
`StdLib::ALL_SAFE`: the memory-safe subset of the Lua standard
libraries.  That subset includes the `io` (filesystem), `os` (process
environment, `os.execute`, `os.remove`) and `package` (module loading)
libraries — mlua's notion of "safe" is Rust memory safety, not
sandboxing.  (Base-library functions such as `print` are also present
and elided here; the repository's own `test_lua_dyn_tool_string_manipulation`
test exercises `string.upper` inside a `Lua::new()` instance.) -/
def luaNewGlobals : List String :=
  ["coroutine", "table", "io", "os", "string", "utf8", "math", "package"]

/-- A fresh `Lua::new()` interpreter's globals (library tables' members
elided: only their presence and cross-call constancy matter here). -/
def luaNewEnv : GEnv := luaNewGlobals.map (fun n => (n, LuaValue.table []))

/-- The global names visible to the config script in
`KotaConfig::from_lua_file`: the `Lua::new()` standard environment, with
the setup chunk adding `kota` (carrying `kota.setup`) and overriding
`os.getenv` (the `os` table already exists), and the host adding the
`_rust_getenv` shim; `_kota_config` is assigned nil, storing no global. -/
def configEnvGlobals : List String := luaNewGlobals ++ ["kota", "_rust_getenv"]

/-- `LuaDynTool` (dyn_tool.rs): a loaded tool descriptor.  The bytecode
payload is a type parameter: the manifest loader produces descriptors
holding an opaque dumped-bytecode buffer (`ℕ` identifier), while the
invocation model holds the bytecode's behavior (`GuestFun`). -/
structure LuaDynTool (β : Type) where
  name : String
  description : String
  parameters : Json
  lua_code : β

/-- `LuaDynTool::call`: opens a fresh interpreter (`Lua::new()`), loads
the cached bytecode into it, converts the arguments through the bridge,
calls, and converts the result back.  The JSON-text parse/serialize at
the rig boundary is elided (arguments arrive as a document value). -/
def LuaDynTool.call (t : LuaDynTool GuestFun) (args : Json) : Except String Json :=
  match (t.lua_code luaNewEnv (json_to_lua args)).2 with
  | .error e => .error e
  | .ok v => .ok (lua_to_json v)

/-- `CommandDef` (declared in runtime/config.rs, used by the command
registry): a literal template string, or compiled bytecode (modelled by
its behavior). -/
inductive CommandDef where
  | String (template : String)
  | Function (code : GuestFun)

/-- `CommandRegistry`: holds one `Lua` interpreter (created once in
`CommandRegistry::new` and shared by every `execute` call) plus the
command map (modelled canonically, like every `HashMap`, as a key-sorted
association list). -/
structure CommandRegistry where
  lua : GEnv
  commands : List (String × CommandDef)

/-- `HashMap::get` on the command map. -/
def lookupCmd : List (String × CommandDef) → String → Option CommandDef
  | [], _ => none
  | (k, d) :: rest, nm => if k = nm then some d else lookupCmd rest nm

/-- The argument table built by `CommandRegistry::execute`:
`lua_args.set(key, value)` for each argument pair. -/
def argsTable (args : List (String × String)) : LTable :=
  args.foldl (fun t p => tset t (.str p.1) (.str p.2)) []

/-- Model of Rust `format!("{:?}", v)` on an `mlua::Value`.  Scalar
payloads render as in Rust; tables, functions, userdata and threads
print an engine reference (address-dependent in Rust, elided to the
constructor name); float rendering stands in for Rust float `Debug`. -/
def f64Text : F64 → String
  | .finite q => toString q
  | .nan => "NaN"
  | .inf => "inf"
  | .neginf => "-inf"

/-- Constructor-wise `Debug` text of a guest value. -/
def luaDebugFormat : LuaValue → String
  | .nil => "Nil"
  | .boolean b => "Boolean(" ++ toString b ++ ")"
  | .integer i => "Integer(" ++ toString i ++ ")"
  | .number f => "Number(" ++ f64Text f ++ ")"
  | .str s => "String(" ++ s ++ ")"
  | .table _ => "Table(..)"
  | .func _ => "Function(..)"
  | .userdata => "UserData(..)"
  | .lightuserdata => "LightUserData(..)"
  | .thread => "Thread(..)"

/-- `CommandRegistry::execute`: literal commands return the stored
template unchanged; compiled commands build a guest table from the
argument map, run the function in the registry's single shared
interpreter (`self.lua` — interior mutability made explicit by returning
the updated registry), and coerce the result (string as-is, nil to the
empty string, anything else to its `Debug` text). -/
def CommandRegistry.execute (r : CommandRegistry) (name : String)
    (args : List (String × String)) : CommandRegistry × Except String String :=
  match lookupCmd r.commands name with
  | none => (r, .error ("Command not found: " ++ name))
  | some (.String template) => (r, .ok template)
  | some (.Function f) =>
    let res := f r.lua (.table (argsTable args))
    ({ r with lua := res.1 },
      match res.2 with
      | .error e => .error e
      | .ok (.str s) => .ok s
      | .ok .nil => .ok ""
      | .ok v => .ok (luaDebugFormat v))

/-- One observable result of the runtime: a tool invocation's document
result or a command invocation's prompt string. -/
inductive Outcome where
  | toolOut (r : Except String Json)
  | cmdOut (r : Except String String)

/-- An invocation request against the runtime. -/
inductive Event where
  | toolCall (t : LuaDynTool GuestFun) (args : Json)
  | cmdExec (nm : String) (args : List (String × String))

/-- Process one invocation.  The persistent interpreter state of the
process is exactly the command registry's shared `Lua` (tool calls build
and drop a fresh interpreter inside `LuaDynTool::call`). -/
def stepEvent (w : CommandRegistry) : Event → CommandRegistry × Outcome
  | .toolCall t args => (w, .toolOut (t.call args))
  | .cmdExec nm args =>
    let r := w.execute nm args
    (r.1, .cmdOut r.2)

/-- Run a sequence of invocations, threading the persistent state. -/
def runEvents (w : CommandRegistry) : List Event → CommandRegistry
  | [] => w
  | e :: es => runEvents (stepEvent w e).1 es

/-- mlua `FromLua` for `String` as used by `tool_def.get::<String>`:
accepts a guest string, coerces numbers to their text (as
`lua_tostring` does), errors on any other kind. -/
def asString : LuaValue → Except String String
  | .str s => .ok s
  | .integer i => .ok (toString i)
  | .number f => .ok (f64Text f)
  | v => .error ("error converting Lua value to String: " ++ luaDebugFormat v)

/-- mlua `FromLua` for `Table`: requires a guest table. -/
def asTable : LuaValue → Except String LTable
  | .table t => .ok t
  | v => .error ("error converting Lua value to Table: " ++ luaDebugFormat v)

/-- mlua `FromLua` for `Function`: requires a guest function. -/
def asFunc : LuaValue → Except String ℕ
  | .func fid => .ok fid
  | v => .error ("error converting Lua value to Function: " ++ luaDebugFormat v)

/-- Per-registration extraction of `load_tools`: read `name`,
`description`, `parameters` and `entry` from the registration table
(each `?`-propagated in the source), convert the parameters table via
`lua_table_to_json`, and dump the entry function to bytecode. -/
def toolFromReg (reg : LTable) : Except String (LuaDynTool ℕ) := do
  let name ← asString (tget reg (.str "name"))
  let description ← asString (tget reg (.str "description"))
  let parameters ← asTable (tget reg (.str "parameters"))
  let entry ← asFunc (tget reg (.str "entry"))
  .ok { name := name, description := description,
        parameters := lua_table_to_json parameters, lua_code := entry }

/-- The extraction loop of `load_tools` over the `_kota_tools` list:
every failure is `?`-propagated, aborting the whole load. -/
def regsToTools : List LTable → Except String (List (LuaDynTool ℕ))
  | [] => .ok []
  | r :: rs =>
    match toolFromReg r with
    | .error e => .error e
    | .ok d =>
      match regsToTools rs with
      | .error e => .error e
      | .ok ds => .ok (d :: ds)

/-- `LuaToolLoader::load_tools`.  `fileExists` models the
`Path::new(tools_path).exists()` check (absent manifest: empty list, not
an error).  `manifestExec` models executing the setup chunk followed by
the manifest source and reading back `_kota_tools`: a read or syntax
error anywhere in the manifest file yields an error (the whole
`lua.load(&tools_content).exec()?` fails), otherwise the registration
tables in registration order.  Every subsequent per-entry failure is
also `?`-propagated. -/
def load_tools (fileExists : Bool) (manifestExec : Except String (List LTable)) :
    Except String (List (LuaDynTool ℕ)) :=
  if !fileExists then .ok []
  else
    match manifestExec with
    | .error e => .error e
    | .ok regs => regsToTools regs

/-- `serde_json::Value::is_null`. -/
def Json.isNull : Json → Bool
  | .null => true
  | _ => false

mutual

/-- The domain on which the bridge round-trip is the identity (the
amended C1 claim): integers within the `i64` range; arrays non-empty
with a non-null last element (a trailing null stores nothing, shrinking
the rebuilt array; an empty array reads back as an empty map); object
members non-null (a null member stores nothing); objects key-sorted and
duplicate-free (the canonical form every `serde_json` map has); all of
this recursively. -/
def rt_safe : Json → Bool
  | .null => true
  | .bool _ => true
  | .num (.int n) => decide (-(2 ^ 63) ≤ n ∧ n < 2 ^ 63)
  | .num (.float _) => true
  | .str _ => true
  | .arr l =>
    !l.isEmpty &&
      (match l.getLast? with
       | some x => !x.isNull
       | none => false) &&
      rt_safeList l
  | .obj m => decide (List.Chain' (fun a b => a.1 < b.1) m) && rt_safeObj m
termination_by v => sizeOf v
decreasing_by
  all_goals simp_wf
  all_goals try omega

/-- All elements of an array are round-trip safe. -/
def rt_safeList : List Json → Bool
  | [] => true
  | v :: vs => rt_safe v && rt_safeList vs
termination_by l => sizeOf l
decreasing_by
  all_goals simp_wf
  all_goals try omega

/-- All members of an object are non-null and round-trip safe. -/
def rt_safeObj : List (String × Json) → Bool
  | [] => true
  | (_, v) :: ps => !v.isNull && rt_safe v && rt_safeObj ps
termination_by ps => sizeOf ps
decreasing_by
  all_goals simp_wf
  all_goals try omega

end

/-- The table contents produced by the array loop of `json_to_lua` when
every key is fresh: one entry per non-null element, keys counting up
from `i`. -/
def arrEnt (i : ℤ) : List Json → LTable
  | [] => []
  | v :: vs =>
    if v.isNull then arrEnt (i + 1) vs
    else (.integer i, json_to_lua v) :: arrEnt (i + 1) vs

/-- The table contents produced by the object loop of `json_to_lua`
when every key is fresh: one entry per non-null member. -/
def objEnt : List (String × Json) → LTable
  | [] => []
  | (k, v) :: ps =>
    if v.isNull then objEnt ps
    else (.str k, json_to_lua v) :: objEnt ps

theorem isNull_iff (v : Json) : v.isNull = true ↔ v = .null := by
  cases v <;> simp [Json.isNull]

/-- The bridge stores nothing exactly for null: every other document
value converts to a non-nil guest value. -/
theorem json_to_lua_eq_nil (v : Json) : json_to_lua v = .nil ↔ v = .null := by
  cases v with
  | null => simp [json_to_lua]
  | bool b => simp [json_to_lua]
  | num n =>
    cases n with
    | int m =>
      simp only [json_to_lua, JNum.as_i64]
      by_cases h : -(2 ^ 63) ≤ m ∧ m < 2 ^ 63
      · rw [if_pos h]
        simp
      · rw [if_neg h]
        simp [JNum.as_f64]
    | float q => simp [json_to_lua, JNum.as_i64, JNum.as_f64]
  | str s => simp [json_to_lua]
  | arr l => simp [json_to_lua]
  | obj m => simp [json_to_lua]

/-- Deleting an absent key is a no-op. -/
theorem tset_nil_fresh (t : LTable) (k : LuaValue)
    (h : ∀ p ∈ t, luaKeyEq p.1 k = false) :
    tset t k .nil = t := by
  simp only [tset]
  exact List.filter_eq_self.mpr (fun p hp => by simp [h p hp])

/-- Storing a non-nil value at an absent key appends the pair. -/
theorem tset_fresh (t : LTable) (k v : LuaValue) (hv : v ≠ .nil)
    (h : ∀ p ∈ t, luaKeyEq p.1 k = false) :
    tset t k v = t ++ [(k, v)] := by
  have haux : tsetNN t k v = t ++ [(k, v)] := by
    induction t with
    | nil => simp [tsetNN]
    | cons p t ih =>
      obtain ⟨k', v'⟩ := p
      have hk : luaKeyEq k' k = false := h (k', v') (by simp)
      simp only [tsetNN, hk, Bool.false_eq_true, if_false, List.cons_append,
        List.cons.injEq, true_and]
      exact ih (fun q hq => h q (by simp [hq]))
  cases v <;> simp_all [tset]

/-- Integer keys below `i` (and non-integer keys) never collide with the
key `i`. -/
theorem keyEq_integer_lt (p : LuaValue × LuaValue) (i : ℤ)
    (h : ∀ j : ℤ, p.1 = .integer j → j < i) : luaKeyEq p.1 (.integer i) = false := by
  obtain ⟨k, v⟩ := p
  cases k with
  | integer j =>
    have := h j rfl
    simp only [luaKeyEq, decide_eq_false_iff_not]
    omega
  | _ => simp [luaKeyEq]

/-- The array loop of `json_to_lua` on fresh ascending keys is an
append of the `arrEnt` entry list. -/
theorem setArr_eq (l : List Json) : ∀ (t : LTable) (i : ℤ),
    (∀ p ∈ t, ∀ j : ℤ, p.1 = .integer j → j < i) →
    setArr t i l = t ++ arrEnt i l := by
  induction l with
  | nil => intro t i _; simp [setArr, arrEnt]
  | cons v vs ih =>
    intro t i h
    simp only [setArr, arrEnt]
    by_cases hv : v.isNull = true
    · have hnull : v = .null := (isNull_iff v).mp hv
      have hnil : json_to_lua v = .nil := by rw [hnull]; simp [json_to_lua]
      rw [if_pos hv, hnil,
        tset_nil_fresh t (.integer i) (fun p hp => keyEq_integer_lt p i (h p hp))]
      exact ih t (i + 1) (fun p hp j hj => by have := h p hp j hj; omega)
    · have hnn : json_to_lua v ≠ .nil := by
        intro hc
        exact hv ((isNull_iff v).mpr ((json_to_lua_eq_nil v).mp hc))
      rw [if_neg hv]
      rw [tset_fresh t (.integer i) (json_to_lua v) hnn
        (fun p hp => keyEq_integer_lt p i (h p hp))]
      have hfresh : ∀ p ∈ t ++ [((LuaValue.integer i), json_to_lua v)],
          ∀ j : ℤ, p.1 = LuaValue.integer j → j < i + 1 := by
        intro p hp j hj
        rcases List.mem_append.mp hp with hp₁ | hp₂
        · have := h p hp₁ j hj
          omega
        · simp at hp₂
          rw [hp₂] at hj
          have hji : i = j := LuaValue.integer.inj hj
          omega
      rw [ih (t ++ [((LuaValue.integer i), json_to_lua v)]) (i + 1) hfresh]
      simp

/-- A string key distinct from `k` (or a non-string key) never collides
with the key `k`. -/
theorem keyEq_str_notin (p : LuaValue × LuaValue) (k : String)
    (h : ∀ s : String, p.1 = .str s → s ≠ k) : luaKeyEq p.1 (.str k) = false := by
  obtain ⟨k', v'⟩ := p
  cases k' with
  | str s => simpa [luaKeyEq] using h s rfl
  | _ => simp [luaKeyEq]

/-- The object loop of `json_to_lua` on fresh, duplicate-free keys is an
append of the `objEnt` entry list. -/
theorem setObj_eq (m : List (String × Json)) : ∀ (t : LTable),
    (m.map Prod.fst).Nodup →
    (∀ p ∈ t, ∀ s : String, p.1 = .str s → s ∉ m.map Prod.fst) →
    setObj t m = t ++ objEnt m := by
  induction m with
  | nil =>
    intro t _ _
    simp [setObj, objEnt]
  | cons q ps ih =>
    obtain ⟨k, v⟩ := q
    intro t hnd h
    simp only [List.map_cons, List.nodup_cons] at hnd
    obtain ⟨hknotps, hnd'⟩ := hnd
    have hk : ∀ p ∈ t, luaKeyEq p.1 (.str k) = false := by
      intro p hp
      apply keyEq_str_notin
      intro s hs hsk
      exact (h p hp s hs) (by simp [hsk])
    simp only [setObj, objEnt]
    by_cases hv : v.isNull = true
    · have hnil : json_to_lua v = .nil := by
        rw [(isNull_iff v).mp hv]
        simp [json_to_lua]
      rw [if_pos hv, hnil, tset_nil_fresh t _ hk]
      exact ih t hnd' (fun p hp s hs hmem => h p hp s hs (by simp [hmem]))
    · have hnn : json_to_lua v ≠ .nil := by
        intro hc
        exact hv ((isNull_iff v).mpr ((json_to_lua_eq_nil v).mp hc))
      rw [if_neg hv, tset_fresh t _ _ hnn hk]
      have hfresh : ∀ p ∈ t ++ [((LuaValue.str k), json_to_lua v)],
          ∀ s : String, p.1 = .str s → s ∉ ps.map Prod.fst := by
        intro p hp s hs
        rcases List.mem_append.mp hp with hp₁ | hp₂
        · intro hmem
          exact h p hp₁ s hs (by simp [hmem])
        · simp at hp₂
          rw [hp₂] at hs
          have : k = s := LuaValue.str.inj hs
          rw [← this]
          exact hknotps
      rw [ih (t ++ [((LuaValue.str k), json_to_lua v)]) hnd' hfresh]
      simp

/-- All keys the array loop writes are positive integers, so the scan of
`lua_to_json` classifies its output table as an array. -/
theorem luaIsArray_arrEnt (l : List Json) : ∀ i : ℤ, 0 < i →
    luaIsArray (arrEnt i l) = true := by
  induction l with
  | nil =>
    intro i _
    simp [arrEnt, luaIsArray]
  | cons v vs ih =>
    intro i hi
    simp only [arrEnt]
    by_cases hv : v.isNull = true
    · rw [if_pos hv]
      exact ih (i + 1) (by omega)
    · rw [if_neg hv]
      simp only [luaIsArray, List.all_cons, Bool.and_eq_true]
      constructor
      · simpa using hi
      · exact ih (i + 1) (by omega)

/-- The `max_index` accumulator over the array loop's output: with a
non-null last element, the maximum key is the index after the last
element. -/
theorem maxFold_arrEnt (l : List Json) : ∀ (i m : ℤ), 0 < i →
    (∃ x, l.getLast? = some x ∧ x.isNull = false) →
    List.foldl
      (fun m p =>
        match p.1 with
        | LuaValue.integer i => max m i
        | _ => m)
      m (arrEnt i l) = max m (i + l.length - 1) := by
  induction l with
  | nil =>
    intro i m _ hlast
    obtain ⟨x, hx, _⟩ := hlast
    simp at hx
  | cons v vs ih =>
    intro i m hi hlast
    obtain ⟨x, hx, hxn⟩ := hlast
    cases vs with
    | nil =>
      simp only [List.getLast?_singleton, Option.some.injEq] at hx
      have hv : v.isNull = false := by rw [hx]; exact hxn
      simp only [arrEnt, hv, Bool.false_eq_true, if_false, List.foldl_cons, arrEnt,
        List.foldl_nil, List.length_cons, List.length_nil]
      change max m i = _
      congr 1
      push_cast
      omega
    | cons w ws =>
      have hlast' : (w :: ws).getLast? = some x := by
        rw [List.getLast?_cons_cons] at hx
        exact hx
      simp only [arrEnt]
      by_cases hv : v.isNull = true
      · rw [if_pos hv]
        refine (ih (i + 1) m (by omega) ⟨x, hlast', hxn⟩).trans ?_
        congr 1
        simp only [List.length_cons]
        push_cast
        omega
      · rw [if_neg hv]
        simp only [List.foldl_cons]
        refine (ih (i + 1) (max m i) (by omega) ⟨x, hlast', hxn⟩).trans ?_
        simp only [List.length_cons]
        rw [max_assoc]
        congr 1
        rw [max_eq_right (by push_cast; omega)]
        push_cast
        omega

/-- Indices below the write range of the array loop are absent. -/
theorem tget_arrEnt_lt (l : List Json) : ∀ (i j : ℤ), j < i →
    tget (arrEnt i l) (.integer j) = .nil := by
  induction l with
  | nil =>
    intro i j _
    simp [arrEnt, tget]
  | cons v vs ih =>
    intro i j hj
    simp only [arrEnt]
    by_cases hv : v.isNull = true
    · rw [if_pos hv]
      exact ih (i + 1) j (by omega)
    · rw [if_neg hv]
      simp only [tget, luaKeyEq]
      rw [if_neg (by simp; omega)]
      exact ih (i + 1) j (by omega)

/-- Reading back an in-range index from the array loop's output returns
the conversion of the corresponding element (nil for a null element,
since nothing was stored there). -/
theorem tget_arrEnt (l : List Json) : ∀ (i j : ℤ), i ≤ j → j < i + l.length →
    tget (arrEnt i l) (.integer j) = json_to_lua (l.getD (j - i).toNat .null) := by
  induction l with
  | nil =>
    intro i j h₁ h₂
    simp at h₂
    omega
  | cons v vs ih =>
    intro i j h₁ h₂
    simp only [arrEnt]
    by_cases hij : j = i
    · subst hij
      have hidx : (j - j).toNat = 0 := by omega
      rw [hidx]
      simp only [List.getD_cons_zero]
      by_cases hv : v.isNull = true
      · rw [if_pos hv, tget_arrEnt_lt vs (j + 1) j (by omega)]
        rw [(isNull_iff v).mp hv]
        simp [json_to_lua]
      · rw [if_neg hv]
        simp [tget, luaKeyEq]
    · have hlt : i < j := by omega
      have hstep : ∀ r : LTable, r = arrEnt (i + 1) vs →
          tget r (.integer j) = json_to_lua (vs.getD (j - (i + 1)).toNat .null) := by
        intro r hr
        rw [hr]
        apply ih (i + 1) j (by omega)
        simp only [List.length_cons] at h₂
        omega
      have hidx : (j - i).toNat = (j - (i + 1)).toNat + 1 := by omega
      rw [hidx]
      simp only [List.getD_cons_succ]
      by_cases hv : v.isNull = true
      · rw [if_pos hv]
        exact hstep _ rfl
      · rw [if_neg hv]
        simp only [tget, luaKeyEq]
        rw [if_neg (by simp; omega)]
        exact hstep _ rfl

/-- The rebuild loop of `lua_to_json` reads consecutive indices. -/
theorem arrLoop_eq (n : ℕ) : ∀ (t : LTable) (i : ℤ),
    arrLoop t i n =
      (List.range n).map (fun j : ℕ => lua_to_json (tget t (.integer (i + (j : ℤ))))) := by
  induction n with
  | zero =>
    intro t i
    simp [arrLoop]
  | succ n ih =>
    intro t i
    rw [List.range_succ_eq_map]
    simp only [arrLoop, List.map_cons, List.map_map]
    congr 1
    · norm_num
    · rw [ih t (i + 1)]
      apply List.map_congr_left
      intro j _
      simp only [Function.comp_apply]
      congr 3
      push_cast
      omega

/-- Reading every position of a list by `getD` reproduces the list. -/
theorem map_getD_range (l : List Json) (d : Json) :
    (List.range l.length).map (fun j => l.getD j d) = l := by
  induction l with
  | nil => simp
  | cons v vs ih =>
    simp only [List.length_cons, List.range_succ_eq_map, List.map_cons, List.getD_cons_zero,
      List.map_map]
    congr 1

/-- Inserting a key greater than every present key appends the binding. -/
theorem mapInsert_append {β : Type} (acc : List (String × β)) (k : String) (v : β)
    (h : ∀ p ∈ acc, p.1 < k) : mapInsert acc k v = acc ++ [(k, v)] := by
  induction acc with
  | nil => simp [mapInsert]
  | cons q rest ih =>
    obtain ⟨k', v'⟩ := q
    have hk' : k' < k := h (k', v') (by simp)
    simp only [mapInsert]
    rw [if_neg (by exact not_lt_of_gt hk'), if_neg (by exact fun hc => absurd hc.symm (ne_of_lt hk')),
      ih (fun p hp => h p (by simp [hp]))]
    simp

/-- The object fold of `lua_to_json` over the object loop's output:
with sorted duplicate-free keys, non-null members and an accumulator of
strictly smaller keys, it appends the (recursively converted) members. -/
theorem pairsObj_objEnt (m : List (String × Json)) : ∀ (acc : List (String × Json)),
    (m.map Prod.fst).Pairwise (fun a b => a < b) →
    (∀ p ∈ acc, ∀ q ∈ m, p.1 < q.1) →
    (∀ p ∈ m, p.2.isNull = false ∧ lua_to_json (json_to_lua p.2) = p.2) →
    pairsObj acc (objEnt m) = acc ++ m := by
  induction m with
  | nil =>
    intro acc _ _ _
    simp [objEnt, pairsObj]
  | cons q ps ih =>
    obtain ⟨k, v⟩ := q
    intro acc hsort hacc hval
    have hv : v.isNull = false ∧ lua_to_json (json_to_lua v) = v := hval (k, v) (by simp)
    simp only [objEnt, hv.1, Bool.false_eq_true, if_false]
    simp only [pairsObj, luaKeyStr]
    rw [hv.2]
    rw [mapInsert_append acc k v (fun p hp => hacc p hp (k, v) (by simp))]
    simp only [List.map_cons, List.pairwise_cons] at hsort
    rw [ih (acc ++ [(k, v)]) hsort.2 ?hlt (fun p hp => hval p (by simp [hp]))]
    · simp
    case hlt =>
      intro p hp q hq
      rcases List.mem_append.mp hp with hp₁ | hp₂
      · exact hacc p hp₁ q (by simp [hq])
      · simp at hp₂
        rw [hp₂]
        exact hsort.1 q.1 (List.mem_map_of_mem Prod.fst hq)

theorem rt_safeList_mem (l : List Json) (h : rt_safeList l = true) :
    ∀ v ∈ l, rt_safe v = true := by
  induction l with
  | nil => simp
  | cons v vs ih =>
    simp only [rt_safeList, Bool.and_eq_true] at h
    intro x hx
    rcases List.mem_cons.mp hx with hx | hx
    · rw [hx]; exact h.1
    · exact ih h.2 x hx

theorem rt_safeObj_mem (m : List (String × Json)) (h : rt_safeObj m = true) :
    ∀ p ∈ m, p.2.isNull = false ∧ rt_safe p.2 = true := by
  induction m with
  | nil => simp
  | cons q ps ih =>
    obtain ⟨k, v⟩ := q
    simp only [rt_safeObj, Bool.and_eq_true, Bool.not_eq_true'] at h
    intro p hp
    rcases List.mem_cons.mp hp with hp | hp
    · rw [hp]; exact ⟨h.1.1, h.1.2⟩
    · exact ih h.2 p hp

theorem getD_mem_of_lt (l : List Json) (j : ℕ) (h : j < l.length) (d : Json) :
    l.getD j d ∈ l := by
  induction l generalizing j with
  | nil => simp at h
  | cons v vs ih =>
    cases j with
    | zero => simp
    | succ j =>
      simp only [List.getD_cons_succ]
      exact List.mem_cons_of_mem _ (ih j (by simpa using h))

/-- C1 core: on the `rt_safe` domain the bridge round-trip is the
identity. -/
theorem json_roundtrip (v : Json) (h : rt_safe v = true) :
    lua_to_json (json_to_lua v) = v := by
  cases v with
  | null => simp [json_to_lua, lua_to_json]
  | bool b => simp [json_to_lua, lua_to_json]
  | num n =>
    cases n with
    | int m =>
      have hm : -(2 ^ 63) ≤ m ∧ m < 2 ^ 63 := by
        simpa [rt_safe] using h
      simp only [json_to_lua, JNum.as_i64]
      rw [if_pos hm]
      simp [lua_to_json]
    | float q => simp [json_to_lua, JNum.as_i64, JNum.as_f64, lua_to_json, JNum.from_f64]
  | str s => simp [json_to_lua, lua_to_json]
  | arr l =>
    simp only [rt_safe, Bool.and_eq_true] at h
    obtain ⟨⟨hne, hmatch⟩, hsafe⟩ := h
    have hlast : ∃ x, l.getLast? = some x ∧ x.isNull = false := by
      rcases hl : l.getLast? with _ | x
      · rw [hl] at hmatch
        simp at hmatch
      · rw [hl] at hmatch
        simp only [Bool.not_eq_true'] at hmatch
        exact ⟨x, rfl, hmatch⟩
    have hlen : 0 < l.length := by
      cases l with
      | nil => simp at hne
      | cons a as => simp
    have hsetarr : setArr [] 1 l = arrEnt 1 l := by
      simpa using setArr_eq l [] 1 (by simp)
    have hisarr := luaIsArray_arrEnt l 1 one_pos
    have hmax : luaMaxIndex (arrEnt 1 l) = (l.length : ℤ) := by
      simp only [luaMaxIndex]
      rw [maxFold_arrEnt l 1 0 one_pos hlast]
      rw [max_eq_right (by push_cast; omega)]
      push_cast
      omega
    simp only [json_to_lua]
    rw [hsetarr]
    simp only [lua_to_json]
    rw [if_pos ⟨hisarr, by rw [hmax]; exact_mod_cast hlen⟩]
    rw [hmax]
    have htonat : ((l.length : ℤ)).toNat = l.length := by omega
    rw [htonat, arrLoop_eq]
    congr 1
    conv_rhs => rw [← map_getD_range l .null]
    apply List.map_congr_left
    intro j hj
    have hj' : j < l.length := List.mem_range.mp hj
    rw [tget_arrEnt l 1 (1 + (j : ℤ)) (by omega) (by push_cast; omega)]
    have hidx : ((1 : ℤ) + (j : ℤ) - 1).toNat = j := by omega
    rw [hidx]
    have hmem : l.getD j .null ∈ l := getD_mem_of_lt l j hj' .null
    exact json_roundtrip (l.getD j .null) (rt_safeList_mem l hsafe _ hmem)
  | obj m =>
    simp only [rt_safe, Bool.and_eq_true, decide_eq_true_eq] at h
    obtain ⟨hchain, hobj⟩ := h
    have hpair : (m.map Prod.fst).Pairwise (fun a b => a < b) := by
      rw [← List.chain'_iff_pairwise, List.chain'_map]
      exact hchain
    have hnodup : (m.map Prod.fst).Nodup :=
      hpair.imp (fun hlt => ne_of_lt hlt)
    have hsetobj : setObj [] m = objEnt m := by
      simpa using setObj_eq m [] hnodup (by simp)
    simp only [json_to_lua]
    rw [hsetobj]
    have hvals : ∀ p ∈ m, p.2.isNull = false ∧ lua_to_json (json_to_lua p.2) = p.2 := by
      intro p hp
      have hm := rt_safeObj_mem m hobj p hp
      exact ⟨hm.1, json_roundtrip p.2 hm.2⟩
    cases m with
    | nil =>
      simp [objEnt, lua_to_json, luaIsArray, luaMaxIndex, pairsObj]
    | cons q ps =>
      obtain ⟨k, v⟩ := q
      have hv : v.isNull = false := (hvals (k, v) (by simp)).1
      have hent : objEnt ((k, v) :: ps) = (LuaValue.str k, json_to_lua v) :: objEnt ps := by
        simp only [objEnt, hv, Bool.false_eq_true, if_false]
      rw [hent]
      simp only [lua_to_json]
      rw [if_neg (by simp [luaIsArray])]
      rw [← hent]
      have := pairsObj_objEnt ((k, v) :: ps) [] hpair (by simp) hvals
      simp only [List.nil_append] at this
      rw [this]
termination_by sizeOf v
decreasing_by
  · simp_wf
    have h0 := List.sizeOf_lt_of_mem hmem
    simp only [List.getD, List.get?_eq_getElem?] at h0
    subst_vars
    have hsz : sizeOf (Json.arr l) = 1 + sizeOf l := by simp
    omega
  · simp_wf
    have h1 := List.sizeOf_lt_of_mem hp
    obtain ⟨a, b⟩ := p
    simp only [Prod.mk.sizeOf_spec] at h1
    subst_vars
    have hsz : sizeOf (Json.obj m) = 1 + sizeOf m := by simp
    show sizeOf b < sizeOf (Json.obj m)
    omega

/-- The parser's running positional counter equals one plus the number
of positional (no equals sign) tokens already consumed. -/
theorem parseArgs_eq (toks : List String) : ∀ (idx : ℕ) (acc : List (String × String)),
    parseArgs toks idx acc =
      (List.range toks.length).foldl
        (fun acc j =>
          match splitFirstEq (toks.getD j "") with
          | some (k, v) => mapInsert acc k v
          | none =>
            mapInsert acc
              (toString ((toks.take j).countP (fun s => (splitFirstEq s).isNone) + idx))
              (toks.getD j ""))
        acc := by
  induction toks with
  | nil =>
    intro idx acc
    simp [parseArgs]
  | cons t ts ih =>
    intro idx acc
    rw [List.length_cons, List.range_succ_eq_map, List.foldl_cons, List.foldl_map]
    rcases hsplit : splitFirstEq t with _ | kv
    · simp only [parseArgs, hsplit, List.getD_cons_zero, List.take_zero, List.countP_nil,
        Nat.zero_add]
      rw [ih (idx + 1) (mapInsert acc (toString idx) t)]
      apply List.foldl_ext
      intro a j hj
      simp only [List.getD_cons_succ, List.take_succ_cons, List.countP_cons, hsplit,
        Option.isNone_none]
      rcases hs : splitFirstEq (ts.getD j "") with _ | kv'
      · simp only [hs, if_true]
        have harith :
            (ts.take j).countP (fun s => (splitFirstEq s).isNone) + (idx + 1) =
              (ts.take j).countP (fun s => (splitFirstEq s).isNone) + 1 + idx := by
          omega
        rw [harith]
      · simp only [hs]
    · obtain ⟨k, v⟩ := kv
      simp only [parseArgs, hsplit, List.getD_cons_zero]
      rw [ih idx (mapInsert acc k v)]
      apply List.foldl_ext
      intro a j hj
      simp only [List.getD_cons_succ, List.take_succ_cons, List.countP_cons, hsplit,
        Option.isNone_some, Bool.false_eq_true, if_false, Nat.add_zero]

theorem mapInsert_cons_lt {β : Type} {k k' : String} (h : k < k')
    (t : List (String × β)) (v v' : β) :
    mapInsert ((k', v') :: t) k v = (k, v) :: (k', v') :: t := by
  simp [mapInsert, h]

theorem mapInsert_cons_eq {β : Type} {k k' : String} (h : k = k')
    (t : List (String × β)) (v v' : β) :
    mapInsert ((k', v') :: t) k v = (k, v) :: t := by
  subst h
  simp [mapInsert]

theorem mapInsert_cons_gt {β : Type} {k k' : String} (h : k' < k)
    (t : List (String × β)) (v v' : β) :
    mapInsert ((k', v') :: t) k v = (k', v') :: mapInsert t k v := by
  simp only [mapInsert]
  rw [if_neg (lt_asymm h), if_neg (ne_of_gt h)]

/-- `insert` on the map model overwrites: inserting at the same key
twice keeps only the second binding. -/
theorem mapInsert_replace {β : Type} (r : List (String × β)) (k : String) (v₁ v₂ : β) :
    mapInsert (mapInsert r k v₁) k v₂ = mapInsert r k v₂ := by
  induction r with
  | nil => simp [mapInsert]
  | cons q rest ih =>
    obtain ⟨k', v'⟩ := q
    rcases lt_trichotomy k k' with h1 | h1 | h1
    · simp only [mapInsert_cons_lt h1, mapInsert_cons_eq rfl]
    · simp only [mapInsert_cons_eq h1, mapInsert_cons_eq rfl]
    · simp only [mapInsert_cons_gt h1, ih]

/-- `insert` at two distinct keys commutes: the final map does not
depend on the insertion order. -/
theorem mapInsert_comm {β : Type} (r : List (String × β)) (k₁ k₂ : String) (v₁ v₂ : β)
    (h : k₁ ≠ k₂) :
    mapInsert (mapInsert r k₁ v₁) k₂ v₂ = mapInsert (mapInsert r k₂ v₂) k₁ v₁ := by
  induction r with
  | nil =>
    rcases h.lt_or_lt with h3 | h3
    · simp only [mapInsert]
      rw [if_neg (lt_asymm h3), if_neg (fun hc : k₂ = k₁ => h hc.symm), if_pos h3]
    · simp only [mapInsert]
      rw [if_pos h3, if_neg (lt_asymm h3), if_neg (fun hc : k₁ = k₂ => h hc)]
  | cons q rest ih =>
    obtain ⟨k', v'⟩ := q
    rcases lt_trichotomy k₁ k' with h1 | h1 | h1
    · rcases lt_trichotomy k₂ k' with h2 | h2 | h2
      · rcases h.lt_or_lt with h3 | h3
        · simp only [mapInsert_cons_lt h1, mapInsert_cons_lt h2,
            mapInsert_cons_gt h3, mapInsert_cons_lt h3]
        · simp only [mapInsert_cons_lt h1, mapInsert_cons_lt h2,
            mapInsert_cons_gt h3, mapInsert_cons_lt h3]
      · subst h2
        rcases h.lt_or_lt with h3 | h3
        · simp only [mapInsert_cons_lt h1, mapInsert_cons_gt h3,
            mapInsert_cons_eq rfl, mapInsert_cons_lt h3]
        · exact absurd (h1.trans h3) (lt_irrefl _)
      · rcases h.lt_or_lt with h3 | h3
        · simp only [mapInsert_cons_lt h1, mapInsert_cons_gt h3,
            mapInsert_cons_gt h2]
        · exact absurd ((h1.trans h2).trans h3) (lt_irrefl _)
    · subst h1
      rcases lt_trichotomy k₂ k₁ with h2 | h2 | h2
      · simp only [mapInsert_cons_eq rfl, mapInsert_cons_lt h2,
          mapInsert_cons_gt h2]
      · exact absurd h2.symm h
      · simp only [mapInsert_cons_eq rfl, mapInsert_cons_gt h2]
    · rcases lt_trichotomy k₂ k' with h2 | h2 | h2
      · simp only [mapInsert_cons_gt h1, mapInsert_cons_lt h2,
          mapInsert_cons_gt (h2.trans h1)]
      · subst h2
        simp only [mapInsert_cons_gt h1, mapInsert_cons_eq rfl]
      · simp only [mapInsert_cons_gt h1, mapInsert_cons_gt h2, ih]

/-- Guest tables nested to depth `n` (a NaN number at the bottom). -/
def nestT : ℕ → LuaValue
  | 0 => .number .nan
  | n + 1 => .table [(.integer 1, nestT n)]

/-- The document value `lua_to_json` produces for `nestT n`. -/
def nestJ : ℕ → Json
  | 0 => .null
  | n + 1 => .arr [nestJ n]

theorem lua_to_json_nest (n : ℕ) : lua_to_json (nestT n) = nestJ n := by
  induction n with
  | zero => simp [nestT, nestJ, lua_to_json, JNum.from_f64]
  | succ n ih =>
    simp [nestT, nestJ, lua_to_json, luaIsArray, luaMaxIndex, arrLoop, tget, luaKeyEq, ih]

/-- A failing entry anywhere in the registration list makes the whole
extraction loop fail. -/
theorem regsToTools_error (pre : List LTable) :
    ∀ (bad : LTable) (post : List LTable) (e : String), toolFromReg bad = .error e →
    ∃ em, regsToTools (pre ++ bad :: post) = .error em := by
  induction pre with
  | nil =>
    intro bad post e he
    refine ⟨e, ?_⟩
    simp [regsToTools, he]
  | cons r rs ih =>
    intro bad post e he
    rcases htr : toolFromReg r with er | d
    · exact ⟨er, by simp [regsToTools, htr]⟩
    · obtain ⟨em, hem⟩ := ih bad post e he
      exact ⟨em, by simp [regsToTools, htr, hem]⟩

/-- A manifest registration with all fields well-formed. -/
def goodReg1 : LTable :=
  [(.str "name", .str "tool_one"), (.str "description", .str "first tool"),
   (.str "parameters", .table []), (.str "entry", .func 1)]

/-- A manifest registration whose entry is not a function (the loader's
`tool_def.get::<LuaFunction>("entry")?` fails on it). -/
def badReg2 : LTable :=
  [(.str "name", .str "tool_two"), (.str "description", .str "second tool"),
   (.str "parameters", .table []), (.str "entry", .nil)]

/-- Another well-formed manifest registration. -/
def goodReg3 : LTable :=
  [(.str "name", .str "tool_three"), (.str "description", .str "third tool"),
   (.str "parameters", .table []), (.str "entry", .func 3)]

/-- A compiled command that returns "first" on a fresh interpreter and
"second" once the global `g` has been set — and sets `g` when run. -/
def cexFun : GuestFun := fun env _ =>
  (envSet env "g" (.integer 1),
   .ok (.str (match envGet env "g" with
     | .nil => "first"
     | _ => "second")))

/-- A command registry holding the single compiled command `c`. -/
def cexReg : CommandRegistry :=
  { lua := luaNewEnv, commands := [("c", .Function cexFun)] }

/-- A compiled command returning a guest string. -/
def strFun : GuestFun := fun env _ => (env, .ok (.str "from guest"))

/-- A compiled command returning nil. -/
def nilFun : GuestFun := fun env _ => (env, .ok .nil)

/-- A compiled command returning a guest boolean. -/
def boolFun : GuestFun := fun env _ => (env, .ok (.boolean true))

/-- A registry with one literal and three compiled commands, used to
exercise every coercion case of `execute`. -/
def coerceReg : CommandRegistry :=
  { lua := luaNewEnv,
    commands := [("b", .Function boolFun), ("fix", .String "analyze the file"),
                 ("n", .Function nilFun), ("s", .Function strFun)] }

/-- C1 (amended): the Value Bridge round-trip `to_host ∘ to_guest` is
the identity on values whose integers fit in `i64`, whose maps have no
null-valued members, and whose arrays are non-empty with a non-null last
element (recursively); a null map member or a trailing array null stores
nothing in the guest table and is lost, and an empty array reads back as
the empty map (the documented exception, second conjunct). -/
theorem value_bridge_roundtrip :
    (∀ v : Json, rt_safe v = true → lua_to_json (json_to_lua v) = v) ∧
    lua_to_json (json_to_lua (.arr [])) = .obj [] := by
  constructor
  · exact json_roundtrip
  · simp [json_to_lua, setArr, lua_to_json, luaIsArray, luaMaxIndex, pairsObj]

/-- C1 witness: a concrete nested value round-trips. -/
theorem value_bridge_roundtrip_witness :
    rt_safe (.obj [("flag", .bool true), ("items", .arr [.num (.int 1), .str "x"])]) = true ∧
    lua_to_json (json_to_lua
        (.obj [("flag", .bool true), ("items", .arr [.num (.int 1), .str "x"])])) =
      .obj [("flag", .bool true), ("items", .arr [.num (.int 1), .str "x"])] := by
  have hsafe :
      rt_safe (.obj [("flag", .bool true), ("items", .arr [.num (.int 1), .str "x"])]) = true := by
    simp [rt_safe, rt_safeList, rt_safeObj, Json.isNull]
    decide
  exact ⟨hsafe, value_bridge_roundtrip.1 _ hsafe⟩

/-- C1 counterexample: the claim promises that Map contents are
reproduced for every NaN-free, depth-bounded value, but a map with a
null member round-trips to the empty map (`table.set(k, nil)` stores
nothing), so `to_host(to_guest({"a": null}))` is `{}`, not `{"a": null}`. -/
theorem roundtrip_null_member_counterexample :
    lua_to_json (json_to_lua (.obj [("a", .null)])) = .obj [] ∧
    Json.obj [] ≠ .obj [("a", .null)] := by
  constructor
  · simp [json_to_lua, setObj, tset, lua_to_json, luaIsArray, luaMaxIndex, pairsObj]
  · simp

/-- C2 (amended): `to_host` classifies a guest table as an Array exactly
when every key is a positive integer and the maximum key is positive —
there is no density check — and rebuilds indices `1..max`, filling gaps
with null; otherwise it builds a Map (integer keys in decimal, keys of
unsupported kinds dropped).  A table with keys `{1,2,3}` still converts
to the three-element Array, and a string-keyed table to a Map. -/
theorem array_classification :
    (∀ t : LTable, luaIsArray t = true → 0 < luaMaxIndex t →
      lua_to_json (.table t) = .arr (arrLoop t 1 (luaMaxIndex t).toNat)) ∧
    (∀ t : LTable, luaIsArray t = false →
      lua_to_json (.table t) = .obj (pairsObj [] t)) ∧
    lua_to_json (.table [(.integer 1, .str "a"), (.integer 2, .str "b"),
        (.integer 3, .str "c")]) = .arr [.str "a", .str "b", .str "c"] ∧
    lua_to_json (.table [(.str "a", .integer 1), (.str "b", .integer 2)]) =
      .obj [("a", .num (.int 1)), ("b", .num (.int 2))] := by
  refine ⟨?_, ?_, ?_, ?_⟩
  · intro t h1 h2
    simp only [lua_to_json]
    rw [if_pos ⟨h1, h2⟩]
  · intro t h1
    simp only [lua_to_json]
    rw [if_neg (by simp [h1])]
  · simp [lua_to_json, luaIsArray, luaMaxIndex, arrLoop, tget, luaKeyEq]
  · simp [lua_to_json, luaIsArray, luaMaxIndex, pairsObj, luaKeyStr, mapInsert]
    decide

/-- C2 witness: the classification branches at concrete tables. -/
theorem array_classification_witness :
    lua_to_json (.table [(.integer 1, .str "a")]) =
      .arr (arrLoop [(.integer 1, .str "a")] 1
        (luaMaxIndex [(.integer 1, .str "a")]).toNat) ∧
    lua_to_json (.table [(.str "k", .integer 7)]) =
      .obj (pairsObj [] [(.str "k", .integer 7)]) :=
  ⟨array_classification.1 _ (by decide) (by decide),
   array_classification.2.1 _ (by decide)⟩

/-- C2 counterexample: the claim says keys `{1,2,4}` (a gap) convert to
a Map with string keys; the code has no density check, so the table
converts to a four-element Array with a null hole at index 3. -/
theorem array_gap_counterexample :
    lua_to_json (.table [(.integer 1, .str "a"), (.integer 2, .str "b"),
        (.integer 4, .str "d")]) = .arr [.str "a", .str "b", .null, .str "d"] ∧
    Json.arr [.str "a", .str "b", .null, .str "d"] ≠
      .obj [("1", .str "a"), ("2", .str "b"), ("4", .str "d")] := by
  constructor
  · simp [lua_to_json, luaIsArray, luaMaxIndex, arrLoop, tget, luaKeyEq]
  · simp

/-- C3 (amended): `to_host` has no typed conversion errors at all: a
non-finite guest number converts successfully to null
(`Number::from_f64` returning `None` is mapped to `Ok(Null)`), and there
is no recursion depth limit — tables of every nesting depth convert
successfully (a cyclic guest table would therefore recurse without
bound in the source; cycles are not representable in this finite-tree
model). -/
theorem to_host_no_typed_errors :
    (∀ f : F64, JNum.from_f64 f = none → lua_to_json (.number f) = .null) ∧
    (∀ n : ℕ, lua_to_json (nestT n) = nestJ n) := by
  constructor
  · intro f hf
    simp [lua_to_json, hf]
  · exact lua_to_json_nest

/-- C3 witness: positive infinity converts to null, and a depth-3 nest
converts successfully. -/
theorem to_host_no_typed_errors_witness :
    JNum.from_f64 .inf = none ∧ lua_to_json (.number .inf) = .null ∧
    lua_to_json (nestT 3) = nestJ 3 :=
  ⟨rfl, to_host_no_typed_errors.1 .inf rfl, to_host_no_typed_errors.2 3⟩

/-- C3 counterexample: the claim says a NaN guest number fails the
conversion with `ConversionError::NonFinite`; the code instead succeeds,
producing null (and likewise for negative infinity). -/
theorem nonfinite_to_null_counterexample :
    lua_to_json (.number F64.nan) = .null ∧ lua_to_json (.number F64.neginf) = .null := by
  constructor <;> simp [lua_to_json, JNum.from_f64]

/-- C4 (amended): `load_tools` is not resilient per registration — every
per-entry failure is `?`-propagated.  A missing manifest yields the
empty list; a read/syntax error in the manifest file aborts the load
with that error; a failing registration anywhere in the list aborts the
whole load (no descriptors are returned, not even for the well-formed
registrations); only when every registration extracts does the loader
return all descriptors in registration order. -/
theorem load_tools_abort_behavior :
    (∀ e : Except String (List LTable), load_tools false e = .ok []) ∧
    (∀ msg : String, load_tools true (.error msg) = .error msg) ∧
    (∀ (pre : List LTable) (bad : LTable) (post : List LTable) (e : String),
      toolFromReg bad = .error e →
      ∃ em, load_tools true (.ok (pre ++ bad :: post)) = .error em) ∧
    (∀ (regs : List LTable) (ds : List (LuaDynTool ℕ)), regsToTools regs = .ok ds →
      load_tools true (.ok regs) = .ok ds) := by
  refine ⟨fun e => rfl, fun msg => rfl, ?_, ?_⟩
  · intro pre bad post e he
    obtain ⟨em, hem⟩ := regsToTools_error pre bad post e he
    exact ⟨em, by simp [load_tools, hem]⟩
  · intro regs ds h
    simp [load_tools, h]

/-- C4 witness: the abort behavior at concrete manifests. -/
theorem load_tools_abort_behavior_witness :
    load_tools false (.ok [goodReg1]) = .ok [] ∧
    load_tools true (.error "syntax error near tool_two") =
      .error "syntax error near tool_two" ∧
    toolFromReg badReg2 = .error "error converting Lua value to Function: Nil" ∧
    (∃ em, load_tools true (.ok ([goodReg1] ++ badReg2 :: [goodReg3])) = .error em) :=
  ⟨load_tools_abort_behavior.1 _, load_tools_abort_behavior.2.1 _, rfl,
   load_tools_abort_behavior.2.2.1 [goodReg1] badReg2 [goodReg3]
     "error converting Lua value to Function: Nil" rfl⟩

/-- C4 counterexample: the claim says that with three registrations
where the second is ill-formed, `load_tools` still returns descriptors
for the first and third; instead the whole load returns an error and no
descriptor list at all. -/
theorem loader_aborts_counterexample :
    load_tools true (.ok [goodReg1, badReg2, goodReg3]) =
      .error "error converting Lua value to Function: Nil" ∧
    ∀ ds : List (LuaDynTool ℕ), load_tools true (.ok [goodReg1, badReg2, goodReg3]) ≠ .ok ds := by
  have h : load_tools true (.ok [goodReg1, badReg2, goodReg3]) =
      .error "error converting Lua value to Function: Nil" := by rfl
  refine ⟨h, fun ds hc => ?_⟩
  rw [h] at hc
  cases hc

/-- C5 (amended): the config loader's guest environment is built
subtractively, not additively: `Lua::new()` installs the full safe
standard library (including the filesystem library `io`, the process
library `os`, and module loading via `package`), and the loader only
adds on top of it (`kota` with the setup entry point, and the
`_rust_getenv` environment shim bridged into `os.getenv`); nothing is
removed. -/
theorem config_env_subtractive :
    configEnvGlobals = luaNewGlobals ++ ["kota", "_rust_getenv"] ∧
    "io" ∈ luaNewGlobals ∧ "os" ∈ luaNewGlobals ∧ "package" ∈ luaNewGlobals := by
  refine ⟨rfl, ?_, ?_, ?_⟩ <;> simp [luaNewGlobals]

/-- C5 counterexample: the claim says no capability beyond the
environment-lookup shim is reachable from the config script (no
filesystem, no process spawn); but the `io`, `os` and `package`
libraries are all present in the environment the script executes in. -/
theorem config_env_ambient_capabilities_counterexample :
    "io" ∈ configEnvGlobals ∧ "os" ∈ configEnvGlobals ∧ "package" ∈ configEnvGlobals := by
  refine ⟨?_, ?_, ?_⟩ <;> simp [configEnvGlobals, luaNewGlobals]

/-- C6 (amended): tool invocations are isolated — `LuaDynTool::call`
builds a fresh interpreter per call, so a tool call's outcome after any
history of prior tool and command invocations equals its outcome in
isolation, and it leaves the persistent state untouched.  (Command
invocations are NOT isolated: they share the registry's single
interpreter; see the counterexample.) -/
theorem tool_invocations_isolated :
    ∀ (w : CommandRegistry) (es : List Event) (t : LuaDynTool GuestFun) (args : Json),
      stepEvent (runEvents w es) (.toolCall t args) =
        (runEvents w es, .toolOut (t.call args)) := by
  intro w es t args
  rfl

/-- C6 counterexample: the claim says no interpreter state set during
one invocation is observable in a later one, for commands too; but the
same compiled command run twice through the registry returns "first"
then "second" — the second result observes the global set by the first. -/
theorem command_state_bleed_counterexample :
    (stepEvent cexReg (.cmdExec "c" [])).2 = .cmdOut (.ok "first") ∧
    (stepEvent (stepEvent cexReg (.cmdExec "c" [])).1 (.cmdExec "c" [])).2 =
      .cmdOut (.ok "second") ∧
    Outcome.cmdOut (.ok "first") ≠ .cmdOut (.ok "second") := by
  refine ⟨?_, ?_, by simp⟩
  · simp [stepEvent, CommandRegistry.execute, lookupCmd, cexReg, cexFun, argsTable,
      envSet, envGet, luaNewEnv, luaNewGlobals]
  · simp [stepEvent, CommandRegistry.execute, lookupCmd, cexReg, cexFun, argsTable,
      envSet, envGet, luaNewEnv, luaNewGlobals]

/-- C7 (amended): the Tool Registry stores its entries in a `HashMap`,
which retains no registration order — the final registry state is
insertion-order independent (registering two distinctly named tools in
either order yields the same state, so `list_tools` cannot reflect
registration order), and re-registering an existing name replaces the
previous entry rather than adding a second one. -/
theorem register_replace_and_commute :
    ∀ (r : List (String × KotaToolM)) (t₁ t₂ : KotaToolM),
      (t₁.name = t₂.name → register_tool (register_tool r t₁) t₂ = register_tool r t₂) ∧
      (t₁.name ≠ t₂.name →
        register_tool (register_tool r t₁) t₂ = register_tool (register_tool r t₂) t₁) := by
  intro r t₁ t₂
  constructor
  · intro hname
    simp only [register_tool, hname, mapInsert_replace]
  · intro hname
    simp only [register_tool]
    exact mapInsert_comm r t₁.name t₂.name t₁ t₂ hname

/-- C7 witness: commutation and replacement at concrete tools. -/
theorem register_replace_and_commute_witness :
    register_tool (register_tool ToolRegistryNew ⟨"b", 0⟩) ⟨"a", 1⟩ =
      register_tool (register_tool ToolRegistryNew ⟨"a", 1⟩) ⟨"b", 0⟩ ∧
    register_tool (register_tool ToolRegistryNew ⟨"x", 0⟩) ⟨"x", 1⟩ =
      register_tool ToolRegistryNew ⟨"x", 1⟩ :=
  ⟨(register_replace_and_commute ToolRegistryNew ⟨"b", 0⟩ ⟨"a", 1⟩).2 (by simp),
   (register_replace_and_commute ToolRegistryNew ⟨"x", 0⟩ ⟨"x", 1⟩).1 rfl⟩

/-- C7 counterexample: the claim says `list()` returns names in
registration order; registering "b" then "a" lists `["a", "b"]`, not
the registration order `["b", "a"]`. -/
theorem list_tools_order_counterexample :
    list_tools (register_tool (register_tool ToolRegistryNew ⟨"b", 0⟩) ⟨"a", 1⟩) =
      ["a", "b"] ∧
    (["a", "b"] : List String) ≠ ["b", "a"] := by
  constructor
  · simp [list_tools, register_tool, ToolRegistryNew, mapInsert]
    decide
  · simp

/-- C8: `CommandRegistry::execute` returns a Literal command's stored
template unchanged (the argument map is accepted but never substituted),
and for a Compiled command builds a guest table from the argument map,
invokes the function, and coerces the guest result: a guest string is
returned as-is, a guest nil yields the empty string, and any other
value renders to its `Debug` text. -/
theorem execute_literal_and_coercion :
    ∀ (r : CommandRegistry) (nm : String) (args : List (String × String)),
      (∀ tpl, lookupCmd r.commands nm = some (.String tpl) →
        (r.execute nm args).2 = .ok tpl) ∧
      (∀ f s, lookupCmd r.commands nm = some (.Function f) →
        (f r.lua (.table (argsTable args))).2 = .ok (.str s) →
        (r.execute nm args).2 = .ok s) ∧
      (∀ f, lookupCmd r.commands nm = some (.Function f) →
        (f r.lua (.table (argsTable args))).2 = .ok .nil →
        (r.execute nm args).2 = .ok "") ∧
      (∀ f v, lookupCmd r.commands nm = some (.Function f) →
        (f r.lua (.table (argsTable args))).2 = .ok v →
        (∀ s, v ≠ .str s) → v ≠ .nil →
        (r.execute nm args).2 = .ok (luaDebugFormat v)) := by
  intro r nm args
  refine ⟨?_, ?_, ?_, ?_⟩
  · intro tpl hl
    simp [CommandRegistry.execute, hl]
  · intro f s hl hres
    simp [CommandRegistry.execute, hl, hres]
  · intro f hl hres
    simp [CommandRegistry.execute, hl, hres]
  · intro f v hl hres hs hn
    simp only [CommandRegistry.execute, hl]
    rw [hres]
    cases v with
    | nil => exact absurd rfl hn
    | str s => exact absurd rfl (hs s)
    | _ => rfl

/-- C8 witness: all four coercion cases at a concrete registry. -/
theorem execute_literal_and_coercion_witness :
    (coerceReg.execute "fix" []).2 = .ok "analyze the file" ∧
    (coerceReg.execute "s" []).2 = .ok "from guest" ∧
    (coerceReg.execute "n" []).2 = .ok "" ∧
    (coerceReg.execute "b" []).2 = .ok (luaDebugFormat (.boolean true)) :=
  ⟨(execute_literal_and_coercion coerceReg "fix" []).1 "analyze the file" rfl,
   (execute_literal_and_coercion coerceReg "s" []).2.1 strFun "from guest" rfl rfl,
   (execute_literal_and_coercion coerceReg "n" []).2.2.1 nilFun rfl rfl,
   (execute_literal_and_coercion coerceReg "b" []).2.2.2 boolFun (.boolean true) rfl rfl
     (fun _ h => nomatch h) (fun h => nomatch h)⟩

/-- C9: `parse_command_input` splits on whitespace, takes the first
token as the command name, splits `=`-tokens at the first equals sign
into named arguments, and keys each remaining token by its 1-based
ordinal among positional tokens only (equal to one plus the number of
preceding positional tokens, independent of interleaved named
arguments); an input with no tokens is the empty-command error.  The
first conjunct is the refinement against the spec-side restatement
`specParse`; the rest are the spec's concrete examples. -/
theorem parse_command_input_correct :
    (∀ input : String, parse_command_input input = specParse input) ∧
    parse_command_input "greet alice bob" = .ok ("greet", [("1", "alice"), ("2", "bob")]) ∧
    parse_command_input "" = .error "Empty command" ∧
    parse_command_input "fix" = .ok ("fix", []) ∧
    parse_command_input "review file=a.rs mode=deep" =
      .ok ("review", [("file", "a.rs"), ("mode", "deep")]) ∧
    parse_command_input "test arg1 key=value arg2" =
      .ok ("test", [("1", "arg1"), ("2", "arg2"), ("key", "value")]) := by
  refine ⟨?_, ?_, by rfl, by rfl, ?_, ?_⟩
  · intro input
    simp only [parse_command_input, specParse]
    cases hsw : split_whitespace input with
    | nil => rfl
    | cons name rest =>
      simp only [specParseArgs]
      rw [parseArgs_eq]
  · simp [parse_command_input, split_whitespace, splitWsCore, parseArgs, splitFirstEq,
      mapInsert]
    decide
  · simp [parse_command_input, split_whitespace, splitWsCore, parseArgs, splitFirstEq,
      mapInsert]
    decide
  · simp [parse_command_input, split_whitespace, splitWsCore, parseArgs, splitFirstEq,
      mapInsert]
    decide

/-- C10: guest values of kinds outside the document model (functions,
userdata, threads) convert to null rather than failing — at the top
level, as an array element, and as a map member value. -/
theorem unsupported_kinds_to_null : ∀ (fid : ℕ) (s : String),
    lua_to_json (.func fid) = .null ∧
    lua_to_json .userdata = .null ∧
    lua_to_json .lightuserdata = .null ∧
    lua_to_json .thread = .null ∧
    lua_to_json (.table [(.str s, .func fid)]) = .obj [(s, .null)] ∧
    lua_to_json (.table [(.integer 1, .func fid)]) = .arr [.null] := by
  intro fid s
  refine ⟨by simp [lua_to_json], by simp [lua_to_json], by simp [lua_to_json],
    by simp [lua_to_json], ?_, ?_⟩
  · simp [lua_to_json, luaIsArray, luaMaxIndex, pairsObj, luaKeyStr, mapInsert]
  · simp [lua_to_json, luaIsArray, luaMaxIndex, arrLoop, tget, luaKeyEq]
